import Mathlib

/-!
Verification of the address normalization and grouping engine of the
delivery-route application (src/app.py) against its specification.

The Python source is shallowly embedded: spreadsheet rows become lists of
optional strings (a cell's textual value, `none` when the cell is empty),
the per-row processing functions are translated one by one, and the
Python dict built by `aplicar_correcoes_ruas` is modelled as an
association list with Python's insertion-order/last-value-wins update.
String order is the code-point lexicographic order (Python's `<=` on
`str`), which is the order `Mathlib` installs on `String`.
-/

set_option maxHeartbeats 1000000

namespace App

/-! ## Cells and raw rows (Record Extractor input) -/

/-- A spreadsheet cell, carrying the textual form of its value
(`str(cell.value)`); `none` models `cell.value is None`. -/
abbrev Celula := Option String

/-- One raw worksheet row: its sheet index (`cell.row`), its hidden flag
(`row_dimensions[n].hidden`) and its cells. -/
structure LinhaBruta where
  idx : Nat
  oculta : Bool
  celulas : List Celula
deriving DecidableEq, Repr

/-- `COLUNAS_ESPERADAS` from the source. -/
def COLUNAS_ESPERADAS : Nat := 11

/-- `linha[i].value` guarded as in the source: out-of-range access counts
as an absent value. -/
def valorCelula (cs : List Celula) (i : Nat) : Celula :=
  (cs[i]?).getD none

/-- `validar_linha` from the source: column-count check, then the two
required columns 3 (package number) and 10 (neighborhood), in the
iteration order of `COLUNAS_OBRIGATORIAS`.  Returns the error message,
`none` when the row is valid. -/
def validar_linha (linha : List Celula) (n : Nat) : Option String :=
  if linha.length < COLUNAS_ESPERADAS then
    some ("Linha " ++ toString n ++ ": Numero de colunas insuficiente (esperado 11, encontrado "
      ++ toString linha.length ++ ")")
  else if valorCelula linha 3 = none then
    some ("Linha " ++ toString n ++ ": Valor obrigatorio vazio na coluna Numero do Pacote")
  else if valorCelula linha 10 = none then
    some ("Linha " ++ toString n ++ ": Valor obrigatorio vazio na coluna Bairro")
  else
    none

/-- `str.replace(".0", "")` specialised to the pattern `".0"`: removes
every non-overlapping occurrence, scanning left to right. -/
def replacePontoZero : List Char → List Char
  | '.' :: '0' :: resto => replacePontoZero resto
  | c :: resto => c :: replacePontoZero resto
  | [] => []

/-- `str(linha[3].value).replace(".0", "") if linha[3].value is not None
else ""` (source line 75). -/
def strPacote (v : Celula) : String :=
  match v with
  | some s => ⟨replacePontoZero s.data⟩
  | none => ""

/-! ## Intermediate delivery records -/

/-- One entry of the processed table
`[numero_pacote, endereco, "", bairro]`.  The `rua` field holds the raw
address before `corrigir_sintaxe_ruas` and the parsed street afterwards. -/
structure Linha where
  pacote : String
  rua : String
  numero : String
  bairro : String
deriving DecidableEq, Repr

/-- Result of `gerar_df`: the processed table and the accumulated
problem list. -/
structure Extracao where
  tabela : List Linha
  erros : List String
deriving DecidableEq, Repr

/-- The body of the row loop of `gerar_df` (source lines 60-81): skip
hidden rows, validate, then project columns 3, 8 and 10. -/
def processarLinha (acc : Extracao) (lb : LinhaBruta) : Extracao :=
  if lb.oculta then acc
  else
    match validar_linha lb.celulas lb.idx with
    | some msg => { acc with erros := acc.erros ++ [msg] }
    | none =>
        let numero_pacote := strPacote (valorCelula lb.celulas 3)
        let endereco := (valorCelula lb.celulas 8).getD ""
        let bairro := (valorCelula lb.celulas 10).getD ""
        { acc with tabela := acc.tabela ++ [⟨numero_pacote, endereco, "", bairro⟩] }

/-- `gerar_df` restricted to its row loop: the workbook decoding and the
fewer-than-two-rows check are external to the core (spec section 1). -/
def gerar_df (linhas : List LinhaBruta) : Extracao :=
  linhas.foldl processarLinha ⟨[], []⟩

/-! ## Address Parser (`extrair_numero_endereco`) -/

/-- `s.split(",", 1)` on the character list: `none` when no comma occurs,
otherwise the text before and after the first comma. -/
def dividirVirgula : List Char → Option (List Char × List Char)
  | [] => none
  | c :: cs =>
      if c = ',' then some ([], cs)
      else (dividirVirgula cs).map (fun p => (c :: p.1, p.2))

/-- Python `str.strip()`: drop whitespace from both ends. -/
def strip (s : String) : String :=
  ⟨(((s.data.dropWhile Char.isWhitespace).reverse).dropWhile Char.isWhitespace).reverse⟩

/-- Python `str.lower()`. -/
def minusculas (s : String) : String :=
  ⟨s.data.map Char.toLower⟩

/-- `re.match(r"^(sn|\d+)", resto, re.IGNORECASE)` followed by
`match.group(1).upper() if match else ""`: the alternation first tries
the case-insensitive literal `sn`, then one or more leading digits; the
upper-cased match of the `sn` branch is always `"SN"` and digits are
unchanged by `upper()`. -/
def regexSnOuDigitos (resto : String) : String :=
  if ['s', 'n'].isPrefixOf (minusculas resto).data then "SN"
  else
    let digitos := resto.data.takeWhile Char.isDigit
    if digitos = [] then "" else ⟨digitos⟩

/-- `extrair_numero_endereco` from the source.  (The `not endereco`
guard returns `(endereco, "")`, which coincides with the no-comma
branch for the empty string.) -/
def extrair_numero_endereco (endereco : String) : String × String :=
  match dividirVirgula endereco.data with
  | none => (endereco, "")
  | some p =>
      let rua := strip ⟨p.1⟩
      let resto := strip ⟨p.2⟩
      (rua, regexSnOuDigitos resto)

/-- The per-row body of `corrigir_sintaxe_ruas` (the row always has at
least two fields and a string address in this model). -/
def corrigirLinha (l : Linha) : Linha :=
  let p := extrair_numero_endereco l.rua
  { l with rua := p.1, numero := p.2 }

/-- `corrigir_sintaxe_ruas` from the source. -/
def corrigir_sintaxe_ruas (tabela : List Linha) : List Linha :=
  tabela.map corrigirLinha

/-! ## Python string comparison

Python compares strings lexicographically by code point, with a proper
prefix ordered first.  `lexLe` is that comparison on character lists,
by structural recursion so that the kernel can evaluate it. -/

/-- Code-point lexicographic `<=` on character lists (Python `str` order). -/
def lexLe : List Char → List Char → Bool
  | [], _ => true
  | _ :: _, [] => false
  | a :: as, b :: bs => if a < b then true else if a = b then lexLe as bs else false

/-- Python `s <= t` on strings. -/
def strLe (s t : String) : Prop :=
  lexLe s.data t.data = true

/-- Python `s < t` on strings (for a total order, `<=` and `≠`). -/
def strLt (s t : String) : Prop :=
  strLe s t ∧ s ≠ t

instance decStrLe (s t : String) : Decidable (strLe s t) := by
  unfold strLe; infer_instance

instance decStrLt (s t : String) : Decidable (strLt s t) := by
  unfold strLt; infer_instance

/-! ## Street Correction Table (`aplicar_correcoes_ruas`) -/

/-- One row of `dicionario_ruas.csv`:
`(rua_errada, min_num, max_num, rua_correta)`. -/
structure Regra where
  rua_errada : String
  min_num : String
  max_num : String
  rua_correta : String
deriving DecidableEq, Repr

/-- The dict key `(rua_errada, min_num, max_num)`. -/
abbrev ChaveRegra := String × String × String

/-- The key of a rule. -/
def chaveRegra (r : Regra) : ChaveRegra :=
  (r.rua_errada, r.min_num, r.max_num)

/-- One Python dict assignment `m[k] = v`: an existing key keeps its
position and gets the new value, a new key is appended. -/
def inserirDict (m : List (ChaveRegra × String)) (k : ChaveRegra) (v : String) :
    List (ChaveRegra × String) :=
  if m.any (fun p => decide (p.1 = k)) then
    m.map (fun p => if p.1 = k then (k, v) else p)
  else
    m ++ [(k, v)]

/-- The dict comprehension `correcoes_map` (source lines 117-118):
Python dict semantics give first-insertion iteration order and
last-assignment values. -/
def construirMapa (dicionario : List Regra) : List (ChaveRegra × String) :=
  dicionario.foldl (fun m r => inserirDict m (chaveRegra r) r.rua_correta) []

/-- The match test `rua == rua_errada and min_num <= numero <= max_num`,
with Python's lexicographic string comparison. -/
def regraCasa (rua numero : String) (k : ChaveRegra) : Bool :=
  decide (rua = k.1) && decide (strLe k.2.1 numero) && decide (strLe numero k.2.2)

/-- The inner loop of `aplicar_correcoes_ruas`: first matching dict
entry wins (the `break`). -/
def aplicarLinha (mapa : List (ChaveRegra × String)) (l : Linha) : Linha :=
  match mapa.find? (fun p => regraCasa l.rua l.numero p.1) with
  | some p => { l with rua := p.2 }
  | none => l

/-- `aplicar_correcoes_ruas` from the source (rows always have at least
three fields in this model). -/
def aplicar_correcoes_ruas (tabela : List Linha) (dicionario : List Regra) : List Linha :=
  if dicionario = [] then tabela
  else tabela.map (aplicarLinha (construirMapa dicionario))

/-! ## Grouping Engine (`agrupar_entregas`, `formatar_entrega`) -/

/-- The grouping key `(rua, numero, bairro)`. -/
abbrev Chave := String × String × String

/-- The key of a processed row (fields are always present and non-null
strings in this model, so the `len`/`None` guards of the sort key
collapse). -/
def chave (l : Linha) : Chave :=
  (l.rua, l.numero, l.bairro)

/-- Python tuple comparison: lexicographic over the three string
components. -/
def chaveLe (a b : Chave) : Prop :=
  strLt a.1 b.1 ∨ (a.1 = b.1 ∧ (strLt a.2.1 b.2.1 ∨ (a.2.1 = b.2.1 ∧ strLe a.2.2 b.2.2)))

instance decChaveLe (a b : Chave) : Decidable (chaveLe a b) := by
  unfold chaveLe
  infer_instance

/-- Boolean form of the key order, for sorting. -/
def chaveLeB (a b : Chave) : Bool :=
  decide (chaveLe a b)

/-- The record comparison induced by the sort key of `agrupar_entregas`. -/
def linhaLeB (a b : Linha) : Bool :=
  chaveLeB (chave a) (chave b)

/-- Python `", ".join`-style joining (`sep.join(l)`). -/
def juntar (sep : String) : List String → String
  | [] => ""
  | [a] => a
  | a :: resto => a ++ sep ++ juntar sep resto

/-- `formatar_entrega` from the source: `pacotes[0]` for a singleton,
otherwise `", ".join(pacotes[:-1]) + " e " + pacotes[-1]`. -/
def formatar_entrega (pacotes : List String) (rua numero bairro : String) : List String :=
  if pacotes = [] then ["", rua, numero, bairro]
  else
    let pacotes_str :=
      if pacotes.length = 1 then pacotes.headD ""
      else juntar ", " pacotes.dropLast ++ " e " ++ pacotes.getLastD ""
    [pacotes_str, rua, numero, bairro]

/-- The scan loop of `agrupar_entregas` (source lines 146-166), with the
running output, the current package group and the current address made
explicit.  `enderecoAtual = none` models `endereco_atual = None`. -/
def agruparLoop : List Linha → List (List String) → List String → Option Chave →
    List (List String)
  | [], acc, grupo, enderecoAtual =>
      match enderecoAtual with
      | some e => if grupo = [] then acc else acc ++ [formatar_entrega grupo e.1 e.2.1 e.2.2]
      | none => acc
  | l :: resto, acc, grupo, enderecoAtual =>
      if enderecoAtual = some (chave l) then
        agruparLoop resto acc (grupo ++ [l.pacote]) enderecoAtual
      else
        match enderecoAtual with
        | some e0 =>
            if grupo = [] then agruparLoop resto acc [l.pacote] (some (chave l))
            else
              agruparLoop resto (acc ++ [formatar_entrega grupo e0.1 e0.2.1 e0.2.2])
                [l.pacote] (some (chave l))
        | none => agruparLoop resto acc [l.pacote] (some (chave l))

/-- `agrupar_entregas` from the source: the empty-table guard, the
stable sort by `(rua, numero, bairro)` (Python's `sorted`), and the
adjacent-grouping scan. -/
def agrupar_entregas (tabela : List Linha) : List (List String) :=
  if tabela = [] then []
  else agruparLoop (tabela.mergeSort linhaLeB) [] [] none

/-! ## The pipeline as run by `main` -/

/-- The record-level stages: parsing then street correction.  In the
source both stages mutate the table in place; here the mutated table is
the returned value. -/
def estagiosRegistros (tabela : List Linha) (dicionario : List Regra) : List Linha :=
  aplicar_correcoes_ruas (corrigir_sintaxe_ruas tabela) dicionario

/-- The full pipeline on extracted records: parsing, street correction,
grouping (source lines 259-261). -/
def pipeline (tabela : List Linha) (dicionario : List Regra) : List (List String) :=
  agrupar_entregas (estagiosRegistros tabela dicionario)

/-- Running the full pipeline a second time over the same record list:
because the stages mutate the records in place, the second run receives
the records as left by the first run. -/
def pipelineSegundaExecucao (tabela : List Linha) (dicionario : List Regra) :
    List (List String) :=
  agrupar_entregas (estagiosRegistros (estagiosRegistros tabela dicionario) dicionario)

/-- A fresh field-by-field copy of the record list, as a second
extraction of the same source rows would produce. -/
def copiaProfunda (tabela : List Linha) : List Linha :=
  tabela.map (fun l => ⟨l.pacote, l.rua, l.numero, l.bairro⟩)

/-! ## Specification-side definitions

These follow the wording of the specification; the claim theorems
compare them with the definitions translated from the source. -/

/-- The Address Parser contract as worded in spec section 4.2: split on
the first comma (no comma: original string and empty number); street is
the trimmed left part; the house number is the leading case-insensitive
literal `sn` (normalized to `"SN"`) or the leading run of digits of the
trimmed right part, empty when neither is present. -/
def specParserEndereco (endereco : String) : String × String :=
  match dividirVirgula endereco.data with
  | none => (endereco, "")
  | some p =>
      let resto := strip ⟨p.2⟩
      let numero :=
        if ['s', 'n'].isPrefixOf (minusculas resto).data then "SN"
        else ⟨resto.data.takeWhile Char.isDigit⟩
      (strip ⟨p.1⟩, numero)

/-- The package-list rendering as worded in spec section 4.4: a single
package stands alone, otherwise all but the last are joined by `", "`
and the last is appended after `" e "`. -/
def juntarPacotesSpec : List String → String
  | [] => ""
  | [p] => p
  | [p, q] => p ++ " e " ++ q
  | p :: q :: r :: resto => p ++ ", " ++ juntarPacotesSpec (q :: r :: resto)

/-- The package-number normalization as worded in spec section 4.1: a
trailing `".0"` artifact is stripped, anything else is left unchanged. -/
def stripFinalPontoZero (s : String) : String :=
  match s.data.reverse with
  | '0' :: '.' :: resto => ⟨resto.reverse⟩
  | _ => s

/-! ## Helper definitions for the grouping proof -/

/-- Forward form of the scan loop: keep consuming the run of the
current address, emit it when the address changes, restart. -/
def agruparGo : List Linha → Chave → List String → List (List String)
  | [], e, grupo => [formatar_entrega grupo e.1 e.2.1 e.2.2]
  | l :: resto, e, grupo =>
      if chave l = e then agruparGo resto e (grupo ++ [l.pacote])
      else formatar_entrega grupo e.1 e.2.1 e.2.2 :: agruparGo resto (chave l) [l.pacote]

/-- Adjacent grouping, one maximal run at a time. -/
def agruparRuns : List Linha → List (List String)
  | [] => []
  | l :: resto => agruparGo resto (chave l) [l.pacote]

/-- Adjacent key deduplication, one run at a time. -/
def dedupAdj : List Chave → List Chave
  | [] => []
  | k :: ks => k :: dedupAdj (ks.dropWhile (fun k2 => decide (k2 = k)))
termination_by l => l.length
decreasing_by
  have hsub : List.Sublist (ks.dropWhile (fun k2 => decide (k2 = k))) ks := List.dropWhile_sublist _
  have := hsub.length_le
  simp only [List.length_cons]
  omega

/-! ## Specification side of the Grouping Engine -/

/-- Spec section 4.4: the distinct normalized-address triples occurring
in the table, in ascending lexicographic order. -/
def chavesDistintasOrdenadas (tabela : List Linha) : List Chave :=
  (tabela.map chave).dedup.mergeSort chaveLeB

/-- Spec section 4.4: the package numbers of the records bearing a given
triple, in input order. -/
def pacotesDe (tabela : List Linha) (k : Chave) : List String :=
  (tabela.filter (fun l => decide (chave l = k))).map Linha.pacote

/-- The Grouping Engine contract as worded in spec section 4.4: one
formatted group per distinct triple, ascending by street, house number
and neighborhood, holding exactly the packages of that triple. -/
def specAgrupamento (tabela : List Linha) : List (List String) :=
  (chavesDistintasOrdenadas tabela).map
    (fun k => formatar_entrega (pacotesDe tabela k) k.1 k.2.1 k.2.2)

/-- Spec section 3: rewrite by the first matching rule in source
order. -/
def specPrimeiraCorrecao (d : List Regra) (l : Linha) : Linha :=
  match d.find? (fun r => regraCasa l.rua l.numero (chaveRegra r)) with
  | some r => { l with rua := r.rua_correta }
  | none => l

/-- Spec section 4.3: a rule matches a record when the street is the
rule's wrong name and the house number lies between the bounds under
lexicographic string comparison. -/
def casaProp (l : Linha) (r : Regra) : Prop :=
  l.rua = r.rua_errada ∧ strLe r.min_num l.numero ∧ strLe l.numero r.max_num

instance decCasaProp (l : Linha) (r : Regra) : Decidable (casaProp l r) := by
  unfold casaProp; infer_instance

/-! ## Order lemmas for the Python string comparison -/

theorem lexLe_refl : ∀ l : List Char, lexLe l l = true
  | [] => rfl
  | a :: as => by simp [lexLe, lexLe_refl as]

theorem lexLe_total : ∀ s t : List Char, lexLe s t = true ∨ lexLe t s = true
  | [], _ => Or.inl rfl
  | _ :: _, [] => Or.inr rfl
  | a :: as, b :: bs => by
    rcases lt_trichotomy a b with h | h | h
    · left; simp [lexLe, h]
    · subst h
      rcases lexLe_total as bs with h2 | h2
      · left; simp [lexLe, h2]
      · right; simp [lexLe, h2]
    · right; simp [lexLe, h]

theorem lexLe_antisymm : ∀ s t : List Char, lexLe s t = true → lexLe t s = true → s = t
  | [], [], _, _ => rfl
  | [], _ :: _, _, h2 => by simp [lexLe] at h2
  | _ :: _, [], h1, _ => by simp [lexLe] at h1
  | a :: as, b :: bs, h1, h2 => by
    rcases lt_trichotomy a b with h | h | h
    · exfalso
      simp [lexLe, lt_asymm h, ne_of_gt h] at h2
    · subst h
      simp only [lexLe, lt_self_iff_false, if_false, if_pos rfl] at h1 h2
      rw [lexLe_antisymm as bs h1 h2]
    · exfalso
      simp [lexLe, lt_asymm h, ne_of_gt h] at h1

theorem lexLe_trans : ∀ s t u : List Char, lexLe s t = true → lexLe t u = true → lexLe s u = true
  | [], _, _, _, _ => rfl
  | _ :: _, [], _, h1, _ => by simp [lexLe] at h1
  | _ :: _, _ :: _, [], _, h2 => by simp [lexLe] at h2
  | a :: as, b :: bs, c :: cs, h1, h2 => by
    rcases lt_trichotomy a b with hab | hab | hab
    · rcases lt_trichotomy b c with hbc | hbc | hbc
      · simp [lexLe, lt_trans hab hbc]
      · subst hbc; simp [lexLe, hab]
      · exfalso; simp [lexLe, lt_asymm hbc, ne_of_gt hbc] at h2
    · subst hab
      simp only [lexLe, lt_self_iff_false, if_false, if_pos rfl] at h1
      rcases lt_trichotomy a c with hac | hac | hac
      · simp [lexLe, hac]
      · subst hac
        simp only [lexLe, lt_self_iff_false, if_false, if_pos rfl] at h2 ⊢
        exact lexLe_trans as bs cs h1 h2
      · exfalso; simp [lexLe, lt_asymm hac, ne_of_gt hac] at h2
    · exfalso; simp [lexLe, lt_asymm hab, ne_of_gt hab] at h1

theorem stringDataInj {s t : String} (h : s.data = t.data) : s = t :=
  String.ext h

theorem strLe_refl (s : String) : strLe s s := lexLe_refl s.data

theorem strLe_trans {s t u : String} (h1 : strLe s t) (h2 : strLe t u) : strLe s u :=
  lexLe_trans s.data t.data u.data h1 h2

theorem strLe_antisymm {s t : String} (h1 : strLe s t) (h2 : strLe t s) : s = t :=
  stringDataInj (lexLe_antisymm s.data t.data h1 h2)

theorem strLe_total (s t : String) : strLe s t ∨ strLe t s :=
  lexLe_total s.data t.data

theorem strLt_irrefl (s : String) : ¬ strLt s s := fun h => h.2 rfl

theorem strLt_asymm {s t : String} (h : strLt s t) : ¬ strLt t s :=
  fun g => h.2 (strLe_antisymm h.1 g.1)

theorem strLt_trans {s t u : String} (h1 : strLt s t) (h2 : strLt t u) : strLt s u := by
  refine ⟨strLe_trans h1.1 h2.1, fun e => ?_⟩
  subst e
  exact h1.2 (strLe_antisymm h1.1 h2.1)

theorem strLt_of_lt_of_le {s t u : String} (h1 : strLt s t) (h2 : strLe t u) : strLt s u := by
  refine ⟨strLe_trans h1.1 h2, fun e => ?_⟩
  subst e
  exact h1.2 (strLe_antisymm h1.1 h2)

theorem strLt_of_le_of_lt {s t u : String} (h1 : strLe s t) (h2 : strLt t u) : strLt s u := by
  refine ⟨strLe_trans h1 h2.1, fun e => ?_⟩
  subst e
  exact h2.2 (strLe_antisymm h2.1 h1)

theorem strLt_or_strLt_of_ne {s t : String} (h : s ≠ t) : strLt s t ∨ strLt t s := by
  rcases strLe_total s t with g | g
  · exact Or.inl ⟨g, h⟩
  · exact Or.inr ⟨g, h.symm⟩

theorem chaveLe_refl (a : Chave) : chaveLe a a :=
  Or.inr ⟨rfl, Or.inr ⟨rfl, strLe_refl _⟩⟩

theorem chaveLe_total (a b : Chave) : chaveLe a b ∨ chaveLe b a := by
  by_cases h1 : a.1 = b.1
  · by_cases h2 : a.2.1 = b.2.1
    · rcases strLe_total a.2.2 b.2.2 with h | h
      · exact Or.inl (Or.inr ⟨h1, Or.inr ⟨h2, h⟩⟩)
      · exact Or.inr (Or.inr ⟨h1.symm, Or.inr ⟨h2.symm, h⟩⟩)
    · rcases strLt_or_strLt_of_ne h2 with h | h
      · exact Or.inl (Or.inr ⟨h1, Or.inl h⟩)
      · exact Or.inr (Or.inr ⟨h1.symm, Or.inl h⟩)
  · rcases strLt_or_strLt_of_ne h1 with h | h
    · exact Or.inl (Or.inl h)
    · exact Or.inr (Or.inl h)

theorem chaveLe_trans {a b c : Chave} (hab : chaveLe a b) (hbc : chaveLe b c) : chaveLe a c := by
  rcases hab with h | ⟨e1, h⟩
  · rcases hbc with g | ⟨e2, g⟩
    · exact Or.inl (strLt_trans h g)
    · exact Or.inl (e2 ▸ h)
  · rcases hbc with g | ⟨e2, g⟩
    · exact Or.inl (e1 ▸ g)
    · refine Or.inr ⟨e1.trans e2, ?_⟩
      rcases h with h | ⟨f1, h⟩
      · rcases g with g | ⟨f2, g⟩
        · exact Or.inl (strLt_trans h g)
        · exact Or.inl (f2 ▸ h)
      · rcases g with g | ⟨f2, g⟩
        · exact Or.inl (f1 ▸ g)
        · exact Or.inr ⟨f1.trans f2, strLe_trans h g⟩

theorem chaveLe_antisymm {a b : Chave} (hab : chaveLe a b) (hba : chaveLe b a) : a = b := by
  obtain ⟨a1, a2, a3⟩ := a
  obtain ⟨b1, b2, b3⟩ := b
  simp only [chaveLe] at hab hba
  rcases hab with h | ⟨e1, h⟩
  · rcases hba with g | ⟨e2, g⟩
    · exact absurd g (strLt_asymm h)
    · exact absurd h (e2 ▸ strLt_irrefl b1)
  · rcases hba with g | ⟨e2, g⟩
    · exact absurd g (e1 ▸ strLt_irrefl a1)
    · subst e1
      rcases h with h | ⟨f1, h⟩
      · rcases g with g | ⟨f2, g⟩
        · exact absurd g (strLt_asymm h)
        · exact absurd h (f2 ▸ strLt_irrefl b2)
      · rcases g with g | ⟨f2, g⟩
        · exact absurd g (f1 ▸ strLt_irrefl a2)
        · subst f1
          rw [strLe_antisymm h g]

instance instIsTransChaveLe : IsTrans Chave chaveLe := ⟨fun _ _ _ => chaveLe_trans⟩

instance instIsAntisymmChaveLe : IsAntisymm Chave chaveLe := ⟨fun _ _ => chaveLe_antisymm⟩

theorem chaveLeB_trans (a b c : Chave) (h1 : chaveLeB a b) (h2 : chaveLeB b c) :
    chaveLeB a c :=
  decide_eq_true (chaveLe_trans (of_decide_eq_true h1) (of_decide_eq_true h2))

theorem chaveLeB_total (a b : Chave) : chaveLeB a b || chaveLeB b a := by
  rcases chaveLe_total a b with h | h
  · exact Bool.or_eq_true_iff.mpr (Or.inl (decide_eq_true h))
  · exact Bool.or_eq_true_iff.mpr (Or.inr (decide_eq_true h))

theorem linhaLeB_trans (a b c : Linha) (h1 : linhaLeB a b) (h2 : linhaLeB b c) :
    linhaLeB a c :=
  chaveLeB_trans _ _ _ h1 h2

theorem linhaLeB_total (a b : Linha) : linhaLeB a b || linhaLeB b a :=
  chaveLeB_total _ _

/-! ## Helper lemmas: splitting and joining -/

theorem dividirVirgula_append (l r : List Char) (h : (',' : Char) ∉ l) :
    dividirVirgula (l ++ ',' :: r) = some (l, r) := by
  induction l with
  | nil => simp [dividirVirgula]
  | cons c cs ih =>
      have hc : c ≠ ',' := fun e => h (e ▸ List.mem_cons_self c cs)
      have hcs : (',' : Char) ∉ cs := fun e => h (List.mem_cons_of_mem c e)
      simp [dividirVirgula, hc, ih hcs]

theorem mkData (s : String) : (⟨s.data⟩ : String) = s := by
  cases s; rfl

theorem juntar_cons_cons (sep a b : String) (l : List String) :
    juntar sep (a :: b :: l) = a ++ sep ++ juntar sep (b :: l) := by
  rfl

theorem juntar_dropLast_spec :
    ∀ ps : List String, 2 ≤ ps.length →
      juntar ", " ps.dropLast ++ " e " ++ ps.getLastD "" = juntarPacotesSpec ps
  | [], h => by simp at h
  | [p], h => by simp at h
  | [p, q], _ => by simp [juntar, juntarPacotesSpec]
  | p :: q :: r :: resto, _ => by
      have ih := juntar_dropLast_spec (q :: r :: resto) (by simp)
      have hd : (p :: q :: r :: resto).dropLast = p :: (q :: r :: resto).dropLast := by
        simp [List.dropLast]
      have hne : (q :: r :: resto).dropLast = q :: (r :: resto).dropLast := by
        simp [List.dropLast]
      rw [hd, hne, juntar_cons_cons, juntarPacotesSpec]
      rw [← hne, ← ih]
      simp [List.getLastD_cons, String.append_assoc]

/-! ## Helper lemmas: the package-number replacement -/

theorem replacePontoZero_cons (c : Char) (resto : List Char)
    (hg : ∀ resto2, c = '.' → resto = '0' :: resto2 → False) :
    replacePontoZero (c :: resto) = c :: replacePontoZero resto := by
  simp [replacePontoZero]

theorem length_replacePontoZero_le (l : List Char) :
    (replacePontoZero l).length ≤ l.length := by
  induction l using replacePontoZero.induct with
  | case1 resto ih => simp [replacePontoZero]; omega
  | case2 c resto hg ih => simp [replacePontoZero]; omega
  | case3 => simp [replacePontoZero]

/-- If `".0"` occurs nowhere in `l` (removal leaves `l` unchanged), then
appending the trailing artifact `".0"` and removing all occurrences
strips exactly that artifact. -/
theorem replacePontoZero_append_artefato :
    ∀ l : List Char, replacePontoZero l = l →
      replacePontoZero (l ++ ['.', '0']) = l := by
  intro l
  induction l using replacePontoZero.induct with
  | case1 resto ih =>
      intro h
      exfalso
      rw [replacePontoZero] at h
      have hle := length_replacePontoZero_le resto
      rw [h] at hle
      simp at hle
      omega
  | case2 c resto hg ih =>
      intro h
      rw [replacePontoZero_cons c resto hg] at h
      have h2 : replacePontoZero resto = resto := by
        exact List.cons.inj h |>.2
      have hg2 : ∀ resto2, c = '.' → resto ++ ['.', '0'] = '0' :: resto2 → False := by
        intro resto2 hc happ
        match resto, happ with
        | [], happ => simp at happ
        | r0 :: rs, happ =>
            have : r0 = '0' := (List.cons.inj happ).1
            exact hg rs hc (by rw [this])
      rw [List.cons_append, replacePontoZero_cons c _ hg2, ih h2]
  | case3 =>
      intro _
      rfl

theorem stripFinal_append_artefato (l : List Char) :
    stripFinalPontoZero ⟨l ++ ['.', '0']⟩ = ⟨l⟩ := by
  unfold stripFinalPontoZero
  simp

/-! ## Helper lemmas: the extractor loop -/

theorem processarLinha_split (acc : Extracao) (lb : LinhaBruta) :
    processarLinha acc lb =
      ⟨acc.tabela ++ (processarLinha ⟨[], []⟩ lb).tabela,
        acc.erros ++ (processarLinha ⟨[], []⟩ lb).erros⟩ := by
  unfold processarLinha
  by_cases h : lb.oculta
  · simp [h]
  · simp only [h, Bool.false_eq_true, if_false]
    cases hv : validar_linha lb.celulas lb.idx <;> simp

theorem gerar_df_foldl (linhas : List LinhaBruta) (acc : Extracao) :
    linhas.foldl processarLinha acc =
      ⟨acc.tabela ++ (gerar_df linhas).tabela, acc.erros ++ (gerar_df linhas).erros⟩ := by
  induction linhas generalizing acc with
  | nil => simp [gerar_df]
  | cons lb resto ih =>
      have hdef : gerar_df (lb :: resto) = resto.foldl processarLinha (processarLinha ⟨[], []⟩ lb) := rfl
      rw [List.foldl_cons, ih (processarLinha acc lb), hdef, ih (processarLinha ⟨[], []⟩ lb)]
      rw [processarLinha_split acc lb]
      simp [List.append_assoc]

theorem gerar_df_append (xs ys : List LinhaBruta) :
    gerar_df (xs ++ ys) =
      ⟨(gerar_df xs).tabela ++ (gerar_df ys).tabela,
        (gerar_df xs).erros ++ (gerar_df ys).erros⟩ := by
  unfold gerar_df
  rw [List.foldl_append, gerar_df_foldl ys (List.foldl processarLinha ⟨[], []⟩ xs)]
  rfl

theorem validar_some_of_missing (cs : List Celula) (n : Nat)
    (h : valorCelula cs 3 = none ∨ valorCelula cs 10 = none) :
    ∃ m, validar_linha cs n = some m := by
  unfold validar_linha
  split_ifs with h1 h2 h3
  · exact ⟨_, rfl⟩
  · exact ⟨_, rfl⟩
  · exact ⟨_, rfl⟩
  · rcases h with h | h
    · exact absurd h h2
    · exact absurd h h3

theorem gerar_df_single_err (lb : LinhaBruta) (hoc : lb.oculta = false) (m : String)
    (hv : validar_linha lb.celulas lb.idx = some m) :
    gerar_df [lb] = ⟨[], [m]⟩ := by
  simp [gerar_df, processarLinha, hoc, hv]

/-! ## Helper lemmas: the Python dict of correction rules -/

theorem mem_inserirDict {m : List (ChaveRegra × String)} {k : ChaveRegra} {v : String}
    {p : ChaveRegra × String} (hp : p ∈ inserirDict m k v) : p ∈ m ∨ p = (k, v) := by
  unfold inserirDict at hp
  split_ifs at hp with h
  · rcases List.mem_map.mp hp with ⟨q, hq, hfq⟩
    by_cases hqk : q.1 = k
    · right; rw [← hfq]; simp [hqk]
    · left; rw [← hfq]; simp [hqk]; exact hq
  · rcases List.mem_append.mp hp with h1 | h1
    · exact Or.inl h1
    · right; simpa using h1

theorem map_fst_inserirDict (m : List (ChaveRegra × String)) (k : ChaveRegra) (v : String) :
    (inserirDict m k v).map Prod.fst =
      if m.any (fun p => decide (p.1 = k)) then m.map Prod.fst else m.map Prod.fst ++ [k] := by
  unfold inserirDict
  split_ifs with h
  · rw [List.map_map]
    apply List.map_congr_left
    intro p _
    by_cases hp : p.1 = k
    · simp [hp]
    · simp [hp]
  · simp

theorem key_mem_inserirDict (m : List (ChaveRegra × String)) (k : ChaveRegra) (v : String) :
    k ∈ (inserirDict m k v).map Prod.fst := by
  rw [map_fst_inserirDict]
  split_ifs with h
  · rcases List.any_eq_true.mp h with ⟨p, hp, hpk⟩
    have : p.1 = k := of_decide_eq_true hpk
    exact this ▸ List.mem_map_of_mem Prod.fst hp
  · exact List.mem_append.mpr (Or.inr (List.mem_singleton.mpr rfl))

theorem keys_grow_inserirDict {m : List (ChaveRegra × String)} {k0 : ChaveRegra}
    (h : k0 ∈ m.map Prod.fst) (k : ChaveRegra) (v : String) :
    k0 ∈ (inserirDict m k v).map Prod.fst := by
  rw [map_fst_inserirDict]
  split_ifs
  · exact h
  · exact List.mem_append.mpr (Or.inl h)

theorem mem_construirMapa_aux :
    ∀ (d : List Regra) (m : List (ChaveRegra × String)) (p : ChaveRegra × String),
      p ∈ d.foldl (fun m r => inserirDict m (chaveRegra r) r.rua_correta) m →
      p ∈ m ∨ ∃ r ∈ d, chaveRegra r = p.1 ∧ r.rua_correta = p.2
  | [], m, p, hp => Or.inl hp
  | r :: resto, m, p, hp => by
      rcases mem_construirMapa_aux resto _ p hp with h | ⟨r2, hr2, hk, hv⟩
      · rcases mem_inserirDict h with h2 | h2
        · exact Or.inl h2
        · exact Or.inr ⟨r, List.mem_cons_self r resto, by rw [h2], by rw [h2]⟩
      · exact Or.inr ⟨r2, List.mem_cons_of_mem r hr2, hk, hv⟩

theorem key_mem_construirMapa_aux :
    ∀ (d : List Regra) (m : List (ChaveRegra × String)) (k0 : ChaveRegra),
      (k0 ∈ m.map Prod.fst ∨ ∃ r ∈ d, chaveRegra r = k0) →
      k0 ∈ (d.foldl (fun m r => inserirDict m (chaveRegra r) r.rua_correta) m).map Prod.fst
  | [], m, k0, h => by
      rcases h with h | ⟨r, hr, _⟩
      · exact h
      · exact absurd hr (List.not_mem_nil r)
  | r :: resto, m, k0, h => by
      apply key_mem_construirMapa_aux resto
      rcases h with h | ⟨r2, hr2, hk⟩
      · exact Or.inl (keys_grow_inserirDict h _ _)
      · rcases List.mem_cons.mp hr2 with he | he
        · subst he
          exact Or.inl (hk ▸ key_mem_inserirDict m (chaveRegra r2) r2.rua_correta)
        · exact Or.inr ⟨r2, he, hk⟩

/-- A key matches some entry of the built dict exactly when it matches
some rule of the source list (the dict preserves the key set, and the
match test looks only at the key). -/
theorem exists_match_construirMapa (d : List Regra) (rua numero : String) :
    (∃ p ∈ construirMapa d, regraCasa rua numero p.1 = true) ↔
      (∃ r ∈ d, regraCasa rua numero (chaveRegra r) = true) := by
  constructor
  · rintro ⟨p, hp, hc⟩
    rcases mem_construirMapa_aux d [] p hp with h | ⟨r, hr, hk, _⟩
    · exact absurd h (List.not_mem_nil p)
    · exact ⟨r, hr, by rw [hk]; exact hc⟩
  · rintro ⟨r, hr, hc⟩
    have hmem : chaveRegra r ∈ (construirMapa d).map Prod.fst :=
      key_mem_construirMapa_aux d [] (chaveRegra r)
        (Or.inr ⟨r, hr, rfl⟩)
    rcases List.mem_map.mp hmem with ⟨p, hp, hfst⟩
    exact ⟨p, hp, by rw [hfst]; exact hc⟩

/-- With pairwise-distinct keys, building the dict is just pairing each
rule with its correct name, in source order. -/
theorem construirMapa_eq_of_nodup :
    ∀ (d : List Regra) (m : List (ChaveRegra × String)),
      (m.map Prod.fst ++ d.map chaveRegra).Nodup →
      d.foldl (fun m r => inserirDict m (chaveRegra r) r.rua_correta) m =
        m ++ d.map (fun r => (chaveRegra r, r.rua_correta))
  | [], m, _ => by simp
  | r :: resto, m, hnd => by
      have hnotin : chaveRegra r ∉ m.map Prod.fst := by
        rcases List.nodup_append.mp hnd with ⟨_, _, hdisj⟩
        intro hmem
        exact hdisj hmem (List.mem_cons_self _ _)
      have hany : m.any (fun p => decide (p.1 = chaveRegra r)) = false := by
        rw [List.any_eq_false]
        intro p hp hpk
        exact hnotin (of_decide_eq_true hpk ▸ List.mem_map_of_mem Prod.fst hp)
      have hins : inserirDict m (chaveRegra r) r.rua_correta =
          m ++ [(chaveRegra r, r.rua_correta)] := by
        unfold inserirDict
        rw [hany]
        simp
      rw [List.foldl_cons, hins,
        construirMapa_eq_of_nodup resto (m ++ [(chaveRegra r, r.rua_correta)]) (by
          simp only [List.map_append, List.map_cons, List.map_nil]
          rw [List.append_assoc]
          simpa using hnd)]
      simp

/-! ## Helper development: the grouping scan -/

theorem agruparLoop_some :
    ∀ (xs : List Linha) (acc : List (List String)) (grupo : List String) (e : Chave),
      grupo ≠ [] →
      agruparLoop xs acc grupo (some e) = acc ++ agruparGo xs e grupo
  | [], acc, grupo, e, hg => by
      simp [agruparLoop, agruparGo, hg]
  | l :: resto, acc, grupo, e, hg => by
      simp only [agruparLoop]
      by_cases he : chave l = e
      · rw [if_pos (by rw [he])]
        rw [agruparLoop_some resto acc (grupo ++ [l.pacote]) e (by simp)]
        simp only [agruparGo, if_pos he]
      · rw [if_neg (fun h => he (Option.some.inj h).symm)]
        rw [if_neg hg]
        rw [agruparLoop_some resto (acc ++ [formatar_entrega grupo e.1 e.2.1 e.2.2])
          [l.pacote] (chave l) (by simp)]
        simp only [agruparGo, if_neg he]
        simp

theorem agrupar_entregas_eq_runs (tabela : List Linha) :
    agrupar_entregas tabela = agruparRuns (tabela.mergeSort linhaLeB) := by
  unfold agrupar_entregas
  by_cases h : tabela = []
  · subst h
    simp [agruparRuns]
  · rw [if_neg h]
    have hne : tabela.mergeSort linhaLeB ≠ [] := by
      intro he
      apply h
      have hp := List.mergeSort_perm tabela linhaLeB
      rw [he] at hp
      exact hp.symm.eq_nil
    obtain ⟨x, xs, hx⟩ := List.exists_cons_of_ne_nil hne
    rw [hx]
    simp only [agruparLoop]
    rw [if_neg (by simp)]
    rw [agruparLoop_some xs [] [x.pacote] (chave x) (by simp)]
    simp [agruparRuns]

theorem agruparGo_span :
    ∀ (xs : List Linha) (e : Chave) (grupo : List String),
      agruparGo xs e grupo =
        formatar_entrega
            (grupo ++ (xs.takeWhile (fun l => decide (chave l = e))).map Linha.pacote)
            e.1 e.2.1 e.2.2
          :: agruparRuns (xs.dropWhile (fun l => decide (chave l = e)))
  | [], e, grupo => by simp [agruparGo, agruparRuns]
  | l :: resto, e, grupo => by
      by_cases he : chave l = e
      · simp only [agruparGo, if_pos he, List.takeWhile_cons, List.dropWhile_cons,
          decide_eq_true he, if_pos rfl]
        rw [agruparGo_span resto e (grupo ++ [l.pacote])]
        simp
      · simp only [agruparGo, if_neg he, List.takeWhile_cons, List.dropWhile_cons,
          decide_eq_false he]
        simp [agruparRuns]

theorem dedupAdj_sublist : ∀ l : List Chave, List.Sublist (dedupAdj l) l := by
  intro l
  induction l using dedupAdj.induct with
  | case1 => simp [dedupAdj]
  | case2 k ks ih =>
      rw [dedupAdj]
      exact List.Sublist.cons₂ k (ih.trans (List.dropWhile_sublist _))

theorem mem_dropWhile_of_not {α : Type} (p : α → Bool) {x : α} :
    ∀ l : List α, x ∈ l → p x = false → x ∈ l.dropWhile p
  | a :: t, hx, hpx => by
      by_cases ha : p a
      · rw [List.dropWhile_cons_of_pos ha]
        rcases List.mem_cons.mp hx with he | ht
        · subst he
          rw [ha] at hpx
          exact absurd hpx (by simp)
        · exact mem_dropWhile_of_not p t ht hpx
      · rw [List.dropWhile_cons_of_neg ha]
        exact hx

theorem head_dropWhile_false {α : Type} (p : α → Bool) :
    ∀ (l : List α) (x : α) (t : List α), l.dropWhile p = x :: t → p x = false
  | [], x, t, h => by simp [List.dropWhile] at h
  | a :: l, x, t, h => by
      by_cases ha : p a
      · rw [List.dropWhile_cons_of_pos ha] at h
        exact head_dropWhile_false p l x t h
      · rw [List.dropWhile_cons_of_neg ha] at h
        rw [← (List.cons.inj h).1]
        simpa using ha

theorem mem_dedupAdj_of_mem : ∀ (l : List Chave) (x : Chave), x ∈ l → x ∈ dedupAdj l := by
  intro l
  induction l using dedupAdj.induct with
  | case1 => intro x hx; exact absurd hx (List.not_mem_nil x)
  | case2 k ks ih =>
      intro x hx
      rw [dedupAdj]
      rcases List.mem_cons.mp hx with he | ht
      · exact he ▸ List.mem_cons_self _ _
      · by_cases hxk : x = k
        · exact hxk ▸ List.mem_cons_self _ _
        · exact List.mem_cons_of_mem _
            (ih x (mem_dropWhile_of_not _ ks ht (by simpa using hxk)))

theorem mem_dedupAdj (l : List Chave) (x : Chave) : x ∈ dedupAdj l ↔ x ∈ l :=
  ⟨fun h => (dedupAdj_sublist l).mem h, mem_dedupAdj_of_mem l x⟩

theorem dedupAdj_nodup : ∀ l : List Chave, l.Pairwise chaveLe → (dedupAdj l).Nodup := by
  intro l
  induction l using dedupAdj.induct with
  | case1 => intro _; simp [dedupAdj]
  | case2 k ks ih =>
      intro hp
      rw [dedupAdj]
      rcases List.pairwise_cons.mp hp with ⟨hlb, hks⟩
      refine List.Pairwise.cons ?_ (ih (hks.sublist (List.dropWhile_sublist _)))
      intro y hy hky
      subst hky
      have hkrest : k ∈ ks.dropWhile (fun k2 => decide (k2 = k)) :=
        (dedupAdj_sublist _).mem hy
      have hrest_ne : ks.dropWhile (fun k2 => decide (k2 = k)) ≠ [] := by
        intro he
        rw [he] at hkrest
        exact List.not_mem_nil k hkrest
      obtain ⟨x, t, hxt⟩ := List.exists_cons_of_ne_nil hrest_ne
      have hxk : x ≠ k := by
        have := head_dropWhile_false _ ks x t hxt
        simpa using this
      have hxks : x ∈ ks := (List.dropWhile_sublist _).mem (hxt ▸ List.mem_cons_self x t)
      rcases List.mem_cons.mp (hxt ▸ hkrest) with he | hkt
      · exact hxk he.symm
      · have hpx : List.Pairwise chaveLe (x :: t) :=
          hxt ▸ hks.sublist (List.dropWhile_sublist _)
        have h1 : chaveLe x k := (List.pairwise_cons.mp hpx).1 k hkt
        have h2 : chaveLe k x := hlb x hxks
        exact hxk (chaveLe_antisymm h1 h2)

theorem filter_eq_takeWhile_sorted :
    ∀ (ys : List Linha) (k : Chave),
      List.Pairwise chaveLe (ys.map chave) →
      (∀ l ∈ ys, chaveLe k (chave l)) →
      ys.filter (fun l => decide (chave l = k)) = ys.takeWhile (fun l => decide (chave l = k))
  | [], k, _, _ => rfl
  | y :: t, k, hs, hlb => by
      simp only [List.map_cons, List.pairwise_cons] at hs
      by_cases hy : chave y = k
      · have ih := filter_eq_takeWhile_sorted t k hs.2
          (fun l hl => hlb l (List.mem_cons_of_mem y hl))
        simp [List.filter_cons, List.takeWhile_cons, hy, ih]
      · have hcond : decide (chave y = k) = false := decide_eq_false hy
        simp only [List.filter_cons, List.takeWhile_cons, hcond, Bool.false_eq_true, if_false]
        apply List.filter_eq_nil_iff.mpr
        intro z hz hzk
        have hzk2 : chave z = k := of_decide_eq_true hzk
        have h1 : chaveLe (chave y) (chave z) := hs.1 (chave z) (List.mem_map_of_mem chave hz)
        have h2 : chaveLe k (chave y) := hlb y (List.mem_cons_self y t)
        rw [hzk2] at h1
        exact hy (chaveLe_antisymm h1 h2)

theorem key_ne_of_mem_dropWhile (ys : List Linha) (k : Chave)
    (hs : List.Pairwise chaveLe (ys.map chave))
    (hlb : ∀ l ∈ ys, chaveLe k (chave l)) {z : Linha}
    (hz : z ∈ ys.dropWhile (fun l => decide (chave l = k))) :
    chave z ≠ k := by
  have hrest_ne : ys.dropWhile (fun l => decide (chave l = k)) ≠ [] := by
    intro he
    rw [he] at hz
    exact List.not_mem_nil z hz
  obtain ⟨x, t, hxt⟩ := List.exists_cons_of_ne_nil hrest_ne
  have hxk : chave x ≠ k := by
    have := head_dropWhile_false (fun l => decide (chave l = k)) ys x t hxt
    simpa using this
  have hsub : List.Sublist (ys.dropWhile (fun l => decide (chave l = k))) ys :=
    List.dropWhile_sublist _
  have hxys : x ∈ ys := hsub.mem (hxt ▸ List.mem_cons_self x t)
  rcases List.mem_cons.mp (hxt ▸ hz) with he | hzt
  · subst he; exact hxk
  · have hpx : List.Pairwise chaveLe ((ys.dropWhile (fun l => decide (chave l = k))).map chave) :=
      hs.sublist (hsub.map chave)
    rw [hxt] at hpx
    simp only [List.map_cons, List.pairwise_cons] at hpx
    have h1 : chaveLe (chave x) (chave z) := hpx.1 (chave z) (List.mem_map_of_mem chave hzt)
    intro hzk
    rw [hzk] at h1
    exact hxk (chaveLe_antisymm h1 (hlb x hxys))

theorem agruparRuns_spec :
    ∀ ys : List Linha, List.Pairwise chaveLe (ys.map chave) →
      agruparRuns ys =
        (dedupAdj (ys.map chave)).map
          (fun k =>
            formatar_entrega ((ys.filter (fun l => decide (chave l = k))).map Linha.pacote)
              k.1 k.2.1 k.2.2)
  | [], _ => by simp [agruparRuns, dedupAdj]
  | y :: resto, hs => by
      have hs2 := hs
      simp only [List.map_cons, List.pairwise_cons] at hs2
      have hlb : ∀ l ∈ resto, chaveLe (chave y) (chave l) :=
        fun l hl => hs2.1 (chave l) (List.mem_map_of_mem chave hl)
      have hsortdrop :
          List.Pairwise chaveLe
            ((resto.dropWhile (fun l => decide (chave l = chave y))).map chave) :=
        hs2.2.sublist ((List.dropWhile_sublist _).map chave)
      have hmapdrop : (resto.map chave).dropWhile (fun k2 => decide (k2 = chave y)) =
          (resto.dropWhile (fun l => decide (chave l = chave y))).map chave := by
        rw [List.dropWhile_map]
        rfl
      rw [agruparRuns, agruparGo_span, List.map_cons, dedupAdj, List.map_cons]
      refine (List.cons.injEq _ _ _ _).mpr ⟨?_, ?_⟩
      · rw [show (y :: resto).filter (fun l => decide (chave l = chave y)) =
            y :: resto.filter (fun l => decide (chave l = chave y)) from by
              simp [List.filter_cons]]
        rw [filter_eq_takeWhile_sorted resto (chave y) hs2.2 hlb]
        simp
      · rw [hmapdrop,
          agruparRuns_spec (resto.dropWhile (fun l => decide (chave l = chave y))) hsortdrop]
        apply List.map_congr_left
        intro k2 hk2
        have hk2ne : k2 ≠ chave y := by
          rcases List.mem_map.mp ((dedupAdj_sublist _).mem hk2) with ⟨z, hz, hzk⟩
          rw [← hzk]
          exact key_ne_of_mem_dropWhile resto (chave y) hs2.2 hlb hz
        have hfil : (y :: resto).filter (fun l => decide (chave l = k2)) =
            (resto.dropWhile (fun l => decide (chave l = chave y))).filter
              (fun l => decide (chave l = k2)) := by
          have hy2 : chave y ≠ k2 := fun e => hk2ne e.symm
          rw [show (y :: resto).filter (fun l => decide (chave l = k2)) =
              resto.filter (fun l => decide (chave l = k2)) from by
                simp [List.filter_cons, hy2]]
          conv_lhs => rw [← List.takeWhile_append_dropWhile
            (fun l => decide (chave l = chave y)) resto]
          rw [List.filter_append, List.filter_eq_nil_iff.mpr ?_, List.nil_append]
          intro z hz hzk
          have h1 : chave z = chave y := by simpa using List.mem_takeWhile_imp hz
          have h2 : chave z = k2 := of_decide_eq_true hzk
          exact hk2ne (h2 ▸ h1)
        rw [hfil]
termination_by ys _ => ys.length
decreasing_by
  have hsub : List.Sublist (resto.dropWhile (fun l => decide (chave l = chave y))) resto :=
    List.dropWhile_sublist _
  have := hsub.length_le
  simp only [List.length_cons]
  omega

/-! ## Bridging the stable sort -/

theorem pairwise_chaveLe_mergeSort (ks : List Chave) :
    List.Pairwise chaveLe (ks.mergeSort chaveLeB) :=
  (List.sorted_mergeSort chaveLeB_trans chaveLeB_total ks).imp of_decide_eq_true

theorem pairwise_key_mergeSort (tabela : List Linha) :
    List.Pairwise chaveLe ((tabela.mergeSort linhaLeB).map chave) := by
  rw [List.pairwise_map]
  exact (List.sorted_mergeSort linhaLeB_trans linhaLeB_total tabela).imp of_decide_eq_true

/-- The list of distinct triples of the run-grouped sorted table equals
the sorted list of the distinct triples: adjacent deduplication of a
sorted key list is the sorted deduplication. -/
theorem dedupAdj_mergeSort_eq (ks : List Chave) :
    dedupAdj (ks.mergeSort chaveLeB) = ks.dedup.mergeSort chaveLeB := by
  have hsortA : List.Pairwise chaveLe (dedupAdj (ks.mergeSort chaveLeB)) :=
    (pairwise_chaveLe_mergeSort ks).sublist (dedupAdj_sublist _)
  have hndA : (dedupAdj (ks.mergeSort chaveLeB)).Nodup :=
    dedupAdj_nodup _ (pairwise_chaveLe_mergeSort ks)
  have hsortB : List.Pairwise chaveLe (ks.dedup.mergeSort chaveLeB) :=
    pairwise_chaveLe_mergeSort ks.dedup
  have hndB : (ks.dedup.mergeSort chaveLeB).Nodup :=
    (List.mergeSort_perm ks.dedup chaveLeB).symm.nodup (List.nodup_dedup ks)
  have hperm : List.Perm (dedupAdj (ks.mergeSort chaveLeB)) (ks.dedup.mergeSort chaveLeB) := by
    rw [List.perm_ext_iff_of_nodup hndA hndB]
    intro k
    rw [mem_dedupAdj, List.mem_mergeSort, List.mem_mergeSort, List.mem_dedup]
  exact List.eq_of_perm_of_sorted hperm hsortA hsortB

/-- Stability of the sort, as the formatted groups consume it: records
with a fixed key are mutually tied in the sort order, so filtering the
sorted table by a key yields the records in input order. -/
theorem filter_mergeSort_chave (tabela : List Linha) (k : Chave) :
    (tabela.mergeSort linhaLeB).filter (fun l => decide (chave l = k)) =
      tabela.filter (fun l => decide (chave l = k)) := by
  have hpair : (tabela.filter (fun l => decide (chave l = k))).Pairwise
      (fun a b => linhaLeB a b = true) := by
    apply List.pairwise_of_forall_mem_list
    intro a ha b hb
    have hak : chave a = k := of_decide_eq_true (List.mem_filter.mp ha).2
    have hbk : chave b = k := of_decide_eq_true (List.mem_filter.mp hb).2
    unfold linhaLeB chaveLeB
    rw [hak, hbk]
    exact decide_eq_true (chaveLe_refl k)
  have h1 : List.Sublist (tabela.filter (fun l => decide (chave l = k)))
      (tabela.mergeSort linhaLeB) :=
    List.sublist_mergeSort linhaLeB_trans linhaLeB_total hpair (List.filter_sublist tabela)
  have h3 : (tabela.filter (fun l => decide (chave l = k))).filter
      (fun l => decide (chave l = k)) = tabela.filter (fun l => decide (chave l = k)) :=
    List.filter_eq_self.mpr (fun a ha => (List.mem_filter.mp ha).2)
  have h2 := h1.filter (fun l => decide (chave l = k))
  rw [h3] at h2
  have hlen : ((tabela.mergeSort linhaLeB).filter (fun l => decide (chave l = k))).length =
      (tabela.filter (fun l => decide (chave l = k))).length :=
    ((List.mergeSort_perm tabela linhaLeB).filter (fun l => decide (chave l = k))).length_eq
  exact (h2.eq_of_length hlen.symm).symm

theorem agrupar_eq_spec_aux (tabela : List Linha) :
    agrupar_entregas tabela = specAgrupamento tabela := by
  unfold specAgrupamento chavesDistintasOrdenadas pacotesDe
  rw [agrupar_entregas_eq_runs, agruparRuns_spec _ (pairwise_key_mergeSort tabela)]
  have hmap : (tabela.mergeSort linhaLeB).map chave = (tabela.map chave).mergeSort chaveLeB :=
    List.map_mergeSort (fun a _ b _ => rfl)
  rw [hmap, dedupAdj_mergeSort_eq]
  apply List.map_congr_left
  intro k hk
  rw [filter_mergeSort_chave]

/-! ## Claim theorems -/

/-- Claim C5: the Address Parser is total and returns, for a string
without a comma, the original string and an empty house number, and
otherwise the trimmed part before the first comma as street together
with the leading case-insensitive `sn` (uppercased) or leading digit
run of the trimmed part after the comma, empty when neither occurs:
the source parser coincides with the spec-worded parser on every
input. -/
theorem claim5_endereco (s : String) : extrair_numero_endereco s = specParserEndereco s := by
  unfold extrair_numero_endereco specParserEndereco
  cases h : dividirVirgula s.data with
  | none => rfl
  | some p =>
      unfold regexSnOuDigitos
      by_cases hsn : ['s', 'n'].isPrefixOf (minusculas (strip ⟨p.2⟩)).data
      · simp [hsn]
      · simp only [hsn, Bool.false_eq_true, if_false]
        by_cases hd : (strip ⟨p.2⟩).data.takeWhile Char.isDigit = []
        · simp [hd]
        · simp [hd]

/-- Claim C9: a non-empty package list renders as the single package
number alone, or as all but the last joined by `", "` followed by
`" e "` and the last one. -/
theorem claim9_formatar (ps : List String) (rua numero bairro : String) (hne : ps ≠ []) :
    formatar_entrega ps rua numero bairro = [juntarPacotesSpec ps, rua, numero, bairro] := by
  match ps with
  | [] => exact absurd rfl hne
  | [p] => simp [formatar_entrega, juntarPacotesSpec]
  | p :: q :: t =>
      have h2 : 2 ≤ (p :: q :: t).length := by
        simp only [List.length_cons]
        omega
      unfold formatar_entrega
      rw [if_neg (by simp)]
      rw [if_neg (by simp)]
      rw [juntar_dropLast_spec _ h2]

/-- Claim C9 witness: `["10", "22", "31"]` renders as `"10, 22 e 31"`. -/
theorem claim9_formatar_witness :
    formatar_entrega ["10", "22", "31"] "Rua X" "10" "Centro" =
      ["10, 22 e 31", "Rua X", "10", "Centro"] := by
  rw [claim9_formatar ["10", "22", "31"] "Rua X" "10" "Centro" (by decide)]
  decide

/-- Claim C10: when the trimmed right part of a comma-carrying address
begins with the letters `sn` in any case, even as a prefix of a longer
word, the parsed house number is `"SN"`. -/
theorem claim10_sn_prefixo (l r : String) (h1 : (',' : Char) ∉ l.data)
    (h2 : ['s', 'n'].isPrefixOf (minusculas (strip r)).data) :
    (extrair_numero_endereco (l ++ "," ++ r)).2 = "SN" := by
  unfold extrair_numero_endereco
  have hdata : (l ++ "," ++ r).data = l.data ++ ',' :: r.data := by
    rw [String.data_append, String.data_append]
    simp
  rw [hdata, dividirVirgula_append l.data r.data h1]
  show regexSnOuDigitos (strip r) = "SN"
  unfold regexSnOuDigitos
  rw [if_pos h2]

/-- Claim C10 witness: `"Rua X, Snack"` parses with house number `"SN"`. -/
theorem claim10_sn_prefixo_witness :
    ("Rua X" ++ "," ++ " Snack" = "Rua X, Snack") ∧
      (extrair_numero_endereco ("Rua X" ++ "," ++ " Snack")).2 = "SN" :=
  ⟨by decide, claim10_sn_prefixo "Rua X" " Snack" (by decide) (by decide)⟩

/-- Claim C4: a non-hidden row whose required package-number (position
4) or neighborhood (position 11) cell is empty or absent contributes no
record, contributes exactly one problem message (the one
`validar_linha` reports), and the remaining rows are processed as if
the row were not there. -/
theorem claim4_extractor (antes depois : List LinhaBruta) (r : LinhaBruta)
    (hoc : r.oculta = false)
    (hmiss : valorCelula r.celulas 3 = none ∨ valorCelula r.celulas 10 = none) :
    (gerar_df (antes ++ r :: depois)).tabela =
        (gerar_df antes).tabela ++ (gerar_df depois).tabela ∧
      ∃ msg, validar_linha r.celulas r.idx = some msg ∧
        (gerar_df (antes ++ r :: depois)).erros =
          (gerar_df antes).erros ++ msg :: (gerar_df depois).erros := by
  obtain ⟨msg, hmsg⟩ := validar_some_of_missing r.celulas r.idx hmiss
  have hsingle : gerar_df [r] = ⟨[], [msg]⟩ := gerar_df_single_err r hoc msg hmsg
  have hsplit : antes ++ r :: depois = antes ++ [r] ++ depois := by simp
  rw [hsplit, gerar_df_append (antes ++ [r]) depois, gerar_df_append antes [r], hsingle]
  refine ⟨by simp, msg, hmsg, by simp⟩

/-- Claim C4 witness: a row with an empty neighborhood cell is skipped
with a problem while the following row is still extracted. -/
theorem claim4_extractor_witness :
    (gerar_df [⟨2, false, [some "", some "", some "", some "9", some "", some "", some "",
          some "", some "Rua C, 3", some "", none]⟩,
        ⟨3, false, [some "", some "", some "", some "7", some "", some "", some "",
          some "", some "Rua B, 2", some "", some "Centro"]⟩]).tabela =
      (gerar_df []).tabela ++
        (gerar_df [⟨3, false, [some "", some "", some "", some "7", some "", some "",
          some "", some "", some "Rua B, 2", some "", some "Centro"]⟩]).tabela ∧
    ∃ msg,
      validar_linha [some "", some "", some "", some "9", some "", some "", some "",
          some "", some "Rua C, 3", some "", none] 2 = some msg ∧
      (gerar_df [⟨2, false, [some "", some "", some "", some "9", some "", some "",
            some "", some "", some "Rua C, 3", some "", none]⟩,
          ⟨3, false, [some "", some "", some "", some "7", some "", some "", some "",
            some "", some "Rua B, 2", some "", some "Centro"]⟩]).erros =
        (gerar_df []).erros ++ msg ::
          (gerar_df [⟨3, false, [some "", some "", some "", some "7", some "", some "",
            some "", some "", some "Rua B, 2", some "", some "Centro"]⟩]).erros :=
  claim4_extractor []
    [⟨3, false, [some "", some "", some "", some "7", some "", some "", some "",
      some "", some "Rua B, 2", some "", some "Centro"]⟩]
    ⟨2, false, [some "", some "", some "", some "9", some "", some "", some "",
      some "", some "Rua C, 3", some "", none]⟩
    rfl (Or.inr rfl)

/-- Claim C1 counterexample: the extractor removes every occurrence of
`".0"`, not only a trailing artifact: the cell text `"10.05"` has no
trailing `".0"`, so under the claim the package number would be
`"10.05"` unchanged, but the extractor produces `"105"`. -/
theorem claim1_pacote_counterexample :
    (gerar_df [⟨2, false, [some "", some "", some "", some "10.05", some "", some "",
        some "", some "", some "Rua A, 1", some "", some "Centro"]⟩]).tabela.map
        Linha.pacote = ["105"] ∧
      stripFinalPontoZero "10.05" = "10.05" ∧ ("105" : String) ≠ "10.05" := by
  refine ⟨by decide, by decide, by decide⟩

/-- Claim C1 (amended): the package number is the cell text with every
occurrence of `".0"` removed; when the only occurrence is the trailing
artifact — the text before it contains no `".0"` — this is exactly the
spec's trailing-artifact strip. -/
theorem claim1_pacote (t : String) (h : replacePontoZero t.data = t.data) :
    strPacote (some ⟨t.data ++ ['.', '0']⟩) = stripFinalPontoZero ⟨t.data ++ ['.', '0']⟩ := by
  unfold strPacote
  rw [stripFinal_append_artefato]
  show (⟨replacePontoZero (t.data ++ ['.', '0'])⟩ : String) = ⟨t.data⟩
  rw [replacePontoZero_append_artefato t.data h]

/-- Claim C1 witness: for the spec's example `"1023.0"` the extractor
and the trailing-artifact strip agree, both giving `"1023"`. -/
theorem claim1_pacote_witness :
    replacePontoZero ("1023" : String).data = ("1023" : String).data ∧
      strPacote (some ⟨("1023" : String).data ++ ['.', '0']⟩) =
        stripFinalPontoZero ⟨("1023" : String).data ++ ['.', '0']⟩ ∧
      strPacote (some "1023.0") = "1023" :=
  ⟨by decide, claim1_pacote "1023" (by decide), by decide⟩

/-- Claim C2 counterexample: the parsing and correction stages mutate
the record list, so running the full pipeline a second time over the
same records re-parses the already-parsed addresses, erases the house
number (`"Rua X"` has no comma) and changes the grouped output. -/
theorem claim2_pipeline_counterexample :
    pipelineSegundaExecucao [⟨"1", "Rua X, 45", "", "Centro"⟩] [] ≠
      pipeline [⟨"1", "Rua X, 45", "", "Centro"⟩] [] := by
  have h1 : estagiosRegistros [⟨"1", "Rua X, 45", "", "Centro"⟩] [] =
      [⟨"1", "Rua X", "45", "Centro"⟩] := by decide
  have h2 : estagiosRegistros [⟨"1", "Rua X", "45", "Centro"⟩] [] =
      [⟨"1", "Rua X", "", "Centro"⟩] := by decide
  unfold pipelineSegundaExecucao pipeline
  rw [h1, h2]
  unfold agrupar_entregas
  simp only [List.mergeSort_singleton]
  decide

/-- Claim C2 (amended): the pipeline is a deterministic function of the
extracted record values and the correction table, so a second run
yields identical grouped output when it is given a fresh copy of the
extracted records rather than the list mutated by the first run. -/
theorem claim2_pipeline_fresh (tabela : List Linha) (d : List Regra) :
    pipeline (copiaProfunda tabela) d = pipeline tabela d := by
  have hcopy : copiaProfunda tabela = tabela := by
    unfold copiaProfunda
    have hid : tabela.map (fun l => (⟨l.pacote, l.rua, l.numero, l.bairro⟩ : Linha)) =
        tabela.map id :=
      List.map_congr_left (fun l _ => rfl)
    rw [hid, List.map_id]
  rw [hcopy]

theorem regraCasa_iff (l : Linha) (r : Regra) :
    regraCasa l.rua l.numero (chaveRegra r) = true ↔ casaProp l r := by
  unfold regraCasa chaveRegra casaProp
  constructor
  · intro h
    have h1 := (Bool.and_eq_true _ _).mp h
    have h2 := (Bool.and_eq_true _ _).mp h1.1
    exact ⟨of_decide_eq_true h2.1, of_decide_eq_true h2.2, of_decide_eq_true h1.2⟩
  · intro h
    exact (Bool.and_eq_true _ _).mpr ⟨(Bool.and_eq_true _ _).mpr
      ⟨decide_eq_true h.1, decide_eq_true h.2.1⟩, decide_eq_true h.2.2⟩

theorem aplicarLinha_nodup (d : List Regra) (hnd : (d.map chaveRegra).Nodup) (l : Linha) :
    aplicarLinha (construirMapa d) l = specPrimeiraCorrecao d l := by
  unfold aplicarLinha specPrimeiraCorrecao
  have hmapa : construirMapa d = d.map (fun r => (chaveRegra r, r.rua_correta)) := by
    have h := construirMapa_eq_of_nodup d [] (by simpa using hnd)
    simpa using h
  have hpred : ((fun p : ChaveRegra × String => regraCasa l.rua l.numero p.1) ∘
      fun r => (chaveRegra r, r.rua_correta)) =
        fun r => regraCasa l.rua l.numero (chaveRegra r) := rfl
  rw [hmapa, List.find?_map, hpred]
  cases d.find? (fun r => regraCasa l.rua l.numero (chaveRegra r)) with
  | none => rfl
  | some r => rfl

/-- Claim C3 counterexample: two rules share the triple
`("A", "1", "9")` with different correct names `"B"` then `"C"`; the
dict comprehension keeps the last value, so the record is rewritten to
`"C"`, not to the first rule's `"B"`. -/
theorem claim3_primeira_regra_counterexample :
    (aplicar_correcoes_ruas [⟨"1", "A", "5", "X"⟩]
        [⟨"A", "1", "9", "B"⟩, ⟨"A", "1", "9", "C"⟩]).map Linha.rua = ["C"] ∧
      ("C" : String) ≠ "B" := by
  refine ⟨by decide, by decide⟩

/-- Claim C3 (amended): when the rules carry pairwise-distinct
`(wrong_street, lower_bound, upper_bound)` triples, the Street
Correction Table rewrites each record by the first matching rule in
source order; rules sharing an identical triple are collapsed by the
dict comprehension so that the last one's correct name is used. -/
theorem claim3_primeira_regra (d : List Regra) (tabela : List Linha)
    (hnd : (d.map chaveRegra).Nodup) :
    aplicar_correcoes_ruas tabela d = tabela.map (specPrimeiraCorrecao d) := by
  unfold aplicar_correcoes_ruas
  by_cases hd : d = []
  · subst hd
    rw [if_pos rfl]
    have hid : tabela.map (specPrimeiraCorrecao []) = tabela.map id :=
      List.map_congr_left (fun l _ => rfl)
    rw [hid, List.map_id]
  · rw [if_neg hd]
    exact List.map_congr_left (fun l _ => aplicarLinha_nodup d hnd l)

/-- Claim C3 witness: both rules match street `"Rua A"` and number
`"15"` (distinct triples), and the first one in source order wins. -/
theorem claim3_primeira_regra_witness :
    (([⟨"Rua A", "1", "50", "Rua A Corrigida"⟩, ⟨"Rua A", "10", "20", "Outra Rua"⟩] :
        List Regra).map chaveRegra).Nodup ∧
      aplicar_correcoes_ruas [⟨"7", "Rua A", "15", "Centro"⟩]
          [⟨"Rua A", "1", "50", "Rua A Corrigida"⟩, ⟨"Rua A", "10", "20", "Outra Rua"⟩] =
        ([⟨"7", "Rua A", "15", "Centro"⟩] : List Linha).map
          (specPrimeiraCorrecao
            [⟨"Rua A", "1", "50", "Rua A Corrigida"⟩, ⟨"Rua A", "10", "20", "Outra Rua"⟩]) ∧
      specPrimeiraCorrecao
          [⟨"Rua A", "1", "50", "Rua A Corrigida"⟩, ⟨"Rua A", "10", "20", "Outra Rua"⟩]
          ⟨"7", "Rua A", "15", "Centro"⟩ =
        ⟨"7", "Rua A Corrigida", "15", "Centro"⟩ :=
  ⟨by decide, claim3_primeira_regra _ _ (by decide), by decide⟩

/-- Claim C6: the Street Correction Table leaves a record unchanged
exactly when no rule matches it (street equal to the wrong name, house
number within the bounds under lexicographic string comparison), and
otherwise rewrites its street to the correct name of a matching
rule. -/
theorem claim6_correcao (d : List Regra) (l : Linha) :
    ((¬ ∃ r ∈ d, casaProp l r) → aplicar_correcoes_ruas [l] d = [l]) ∧
      ((∃ r ∈ d, casaProp l r) →
        ∃ r ∈ d, casaProp l r ∧
          aplicar_correcoes_ruas [l] d = [{ l with rua := r.rua_correta }]) := by
  constructor
  · intro hno
    unfold aplicar_correcoes_ruas
    by_cases hd : d = []
    · rw [if_pos hd]
    · rw [if_neg hd]
      have hfind : (construirMapa d).find? (fun p => regraCasa l.rua l.numero p.1) = none := by
        rw [List.find?_eq_none]
        intro p hp hcasa
        apply hno
        obtain ⟨r, hr, hc⟩ :=
          (exists_match_construirMapa d l.rua l.numero).mp ⟨p, hp, hcasa⟩
        exact ⟨r, hr, (regraCasa_iff l r).mp hc⟩
      simp [aplicarLinha, hfind]
  · intro hyes
    obtain ⟨r0, hr0, hc0⟩ := hyes
    have hd : d ≠ [] := by
      intro he
      rw [he] at hr0
      exact List.not_mem_nil r0 hr0
    unfold aplicar_correcoes_ruas
    rw [if_neg hd]
    have hsome : ((construirMapa d).find? (fun p => regraCasa l.rua l.numero p.1)).isSome := by
      rw [List.find?_isSome]
      exact (exists_match_construirMapa d l.rua l.numero).mpr
        ⟨r0, hr0, (regraCasa_iff l r0).mpr hc0⟩
    obtain ⟨p, hp⟩ := Option.isSome_iff_exists.mp hsome
    have hpmem : p ∈ construirMapa d := List.mem_of_find?_eq_some hp
    have hpcasa := List.find?_some hp
    rcases mem_construirMapa_aux d [] p hpmem with h | ⟨r, hr, hk, hv⟩
    · exact absurd h (List.not_mem_nil p)
    · refine ⟨r, hr, (regraCasa_iff l r).mp (by rw [hk]; exact hpcasa), ?_⟩
      simp [aplicarLinha, hp, hv]

/-- Claim C6 witness: with the spec's rule
`("Rua A", "1", "50", "Rua A Corrigida")`, number `"25"` is rewritten
(lexicographically `"1" <= "25" <= "50"`). -/
theorem claim6_correcao_witness :
    ∃ r ∈ ([⟨"Rua A", "1", "50", "Rua A Corrigida"⟩] : List Regra),
      casaProp ⟨"7", "Rua A", "25", "Centro"⟩ r ∧
        aplicar_correcoes_ruas [⟨"7", "Rua A", "25", "Centro"⟩]
            [⟨"Rua A", "1", "50", "Rua A Corrigida"⟩] =
          [{ (⟨"7", "Rua A", "25", "Centro"⟩ : Linha) with rua := r.rua_correta }] :=
  (claim6_correcao [⟨"Rua A", "1", "50", "Rua A Corrigida"⟩] ⟨"7", "Rua A", "25", "Centro"⟩).2
    ⟨⟨"Rua A", "1", "50", "Rua A Corrigida"⟩, by decide, by decide⟩

/-- Claim C7: the Grouping Engine produces exactly one formatted group
per distinct (street, house number, neighborhood) triple of the input,
holding exactly the package numbers of the records bearing that triple,
with groups ascending in the lexicographic triple order; empty input
yields empty output. -/
theorem claim7_agrupamento (tabela : List Linha) :
    agrupar_entregas tabela = specAgrupamento tabela :=
  agrupar_eq_spec_aux tabela

/-- Claim C8: the group of a triple occurring in the input is formatted
from the packages of that triple in their original input order (the
sort is stable, and `pacotesDe` filters the unsorted input). -/
theorem claim8_estabilidade (tabela : List Linha) (k : Chave) (hk : k ∈ tabela.map chave) :
    formatar_entrega (pacotesDe tabela k) k.1 k.2.1 k.2.2 ∈ agrupar_entregas tabela := by
  rw [agrupar_eq_spec_aux]
  unfold specAgrupamento
  apply List.mem_map_of_mem
  unfold chavesDistintasOrdenadas
  rw [List.mem_mergeSort, List.mem_dedup]
  exact hk

/-- Claim C8 witness: the two records of `"Rua X, 10, Centro"` keep
their input order `["101", "102"]` in the grouped row. -/
theorem claim8_estabilidade_witness :
    pacotesDe [⟨"101", "Rua X", "10", "Centro"⟩, ⟨"102", "Rua X", "10", "Centro"⟩,
        ⟨"103", "Rua Y", "5", "Centro"⟩] ("Rua X", "10", "Centro") = ["101", "102"] ∧
      formatar_entrega
          (pacotesDe [⟨"101", "Rua X", "10", "Centro"⟩, ⟨"102", "Rua X", "10", "Centro"⟩,
            ⟨"103", "Rua Y", "5", "Centro"⟩] ("Rua X", "10", "Centro"))
          ("Rua X", "10", "Centro").1 ("Rua X", "10", "Centro").2.1
          ("Rua X", "10", "Centro").2.2 ∈
        agrupar_entregas [⟨"101", "Rua X", "10", "Centro"⟩, ⟨"102", "Rua X", "10", "Centro"⟩,
          ⟨"103", "Rua Y", "5", "Centro"⟩] :=
  ⟨by decide,
    claim8_estabilidade
      [⟨"101", "Rua X", "10", "Centro"⟩, ⟨"102", "Rua X", "10", "Centro"⟩,
        ⟨"103", "Rua Y", "5", "Centro"⟩]
      ("Rua X", "10", "Centro") (by decide)⟩

end App
